import Mathlib

/-!
# Verification of the vs-muxtools core algorithms

Shallow embedding of the two core subsystems of the repository:

* the adaptive keyframe selection of `generate_svt_av1_keyframes`
  (`vsmuxtools/utils/source.py`), together with its statistical fallback
  over the luma-difference series;
* the crash-recovery orchestration: the part-discovery loop of
  `SupportsQP.encode` (`vsmuxtools/video/encoders/base.py`), the part
  merging of `merge_parts` (`vsmuxtools/video/resumable.py`) and the
  on-disk caches of `generate_qp_file` and `SVTAV1.encode`.

Frame indices are embedded as `Int` (Python integers), the luma-difference
series as a function `Int → ℚ` (exact rationals in place of IEEE floats;
the properties proved here only depend on order comparisons and on
median/MAD arithmetic that is exact for the inputs considered).
Python loops become fuel-indexed recursions returning `Option`/`Except`,
with `none` standing for a raised exception or a non-terminating run.
-/

/-! ## Keyframe selection: `generate_svt_av1_keyframes`

The Python source operates on `frames` (the WWXD scene-change hints with
the clip length appended as a sentinel), a cursor `head`, the position
`current_frame` and the accumulator `svt_av1_frames` (started at `[0]`).
-/

/-- Consecutive differences of a list, `gapsOf [a, b, c] = [b - a, c - b]`. -/
def gapsOf (l : List Int) : List Int :=
  l.zipWith (fun a b => b - a) l.tail

/-- The inner reverse scan of the structure search: indices
`len-1, len-2, ..., 0` are tried in order and the first one whose
candidate satisfies `(candidate - current) % structure == 1` is returned
(source lines 491-494). -/
def scanLatest (avail : List Int) (current s : Int) : Option Nat :=
  (List.range avail.length).reverse.find? (fun i => (avail.getD i 0 - current) % s == 1)

/-- The structure search of the hint window (source lines 489-496): the
structures are tried in the given order, for each the candidates are
scanned from latest to earliest and the first aligned index is chosen. -/
def structSearch : List Int → List Int → Int → Option Nat
  | [], _, _ => none
  | s :: rest, avail, current =>
    match scanLatest avail current s with
    | some i => some i
    | none => structSearch rest avail current

/-- Value-level structure search used by the statistical fallback
(source lines 522-529): scans the motion-frame values from latest to
earliest per structure and returns the first aligned frame. -/
def structSearchVal : List Int → List Int → Int → Option Int
  | [], _, _ => none
  | s :: rest, cands, current =>
    match cands.reverse.find? (fun x => (x - current) % s == 1) with
    | some x => some x
    | none => structSearchVal rest cands current

/-- Size of the luma-difference slice
`diff_clip[current + min_still_scene_length : current + max_scene_length + 1]`
taken by the fallback (source line 511). -/
def fbLen (minStill maxLen : Int) : Nat := (maxLen - minStill + 1).toNat

/-- The luma-difference slice itself, as absolute-position reads of the
per-frame series. -/
def fbDiffs (f : Int → ℚ) (current minStill maxLen : Int) : List ℚ :=
  (List.range (fbLen minStill maxLen)).map (fun i : Nat => f (current + minStill + (i : Int)))

/-- `sliding_window_view(diffs, 25)` (source line 514): all length-25
contiguous windows. -/
def windows25 (l : List ℚ) : List (List ℚ) :=
  (List.range (l.length + 1 - 25)).map (fun i => (l.drop i).take 25)

/-- Median of an odd-length list as numpy computes it: the middle element
of the sorted list.  The fallback only takes medians of 25-element
windows, so the odd case is the only one exercised. -/
def npMedianOdd (l : List ℚ) : ℚ :=
  (List.insertionSort (fun a b => a ≤ b) l).getD (l.length / 2) 0

/-- Absolute value on ℚ written out (`np.abs`), kept as an explicit
conditional so that every definition here evaluates by kernel
reduction. -/
def ratAbs (x : ℚ) : ℚ := if x < 0 then -x else x

/-- Per-window thresholds `median + 3 * MAD` (source lines 515-517). -/
def fbThrCore (f : Int → ℚ) (current minStill maxLen : Int) : List ℚ :=
  (windows25 (fbDiffs f current minStill maxLen)).map (fun w =>
    let m := npMedianOdd w
    m + 3 * npMedianOdd (w.map (fun x => ratAbs (x - m))))

/-- Threshold series after boundary padding: the first and last computed
threshold are each replicated 12 times (source line 518). -/
def fbThr (f : Int → ℚ) (current minStill maxLen : Int) : List ℚ :=
  let core := fbThrCore f current minStill maxLen
  List.replicate 12 (core.headD 0) ++ core ++ List.replicate 12 (core.getLastD 0)

/-- Flagged motion positions: slice indices whose luma-difference exceeds
their threshold, shifted back to absolute frame numbers
(source lines 519-520). -/
def fbMotion (f : Int → ℚ) (current minStill maxLen : Int) : List Int :=
  ((List.range (fbLen minStill maxLen)).filter (fun i =>
      decide ((fbThr f current minStill maxLen).getD i 0 <
              (fbDiffs f current minStill maxLen).getD i 0))).map
    (fun i : Nat => current + minStill + (i : Int))

/-- The complete statistical fallback (source lines 506-532): flag motion
positions, search structures `32, 16, 8` among them from latest to
earliest, and force a cut at `current + max_scene_length` when nothing
qualifies.  Returns `none` when the slice holds fewer than 25 samples, in
which case `sliding_window_view` raises in the source. -/
def fallbackSelect (f : Int → ℚ) (current minStill maxLen : Int) : Option Int :=
  if fbLen minStill maxLen < 25 then none
  else
    match structSearchVal [32, 16, 8] (fbMotion f current minStill maxLen) current with
    | some fr => some fr
    | none => some (current + maxLen)

/-- The hint window `available_frames` of the middle branch (source lines
482-487): consecutive hints from position `h` on while they stay within
`max_scene_length` of the current position. -/
def windowOf (frames : List Int) (h : Nat) (cur maxLen : Int) : List Int :=
  (frames.drop h).takeWhile (fun x => decide (x - cur ≤ maxLen))

/-- The selected index inside the window: the structure search result, or
the latest window index when no structure matches (source lines 489-499). -/
def selIdx (frames : List Int) (h : Nat) (cur maxLen : Int) : Nat :=
  (structSearch [32, 16, 8, 4, 2] (windowOf frames h cur maxLen) cur).getD
    ((windowOf frames h cur maxLen).length - 1)

/-- One-to-one embedding of the `while head < len(frames) - 1` loop of
`generate_svt_av1_keyframes` (source lines 469-536).  `h` is the index
being processed in this iteration (the Python `head` after its `+= 1`),
`cur` is `current_frame` and `acc` is `svt_av1_frames`.  The `fuel`
argument bounds the number of iterations; `none` models a run that
raises or does not finish. -/
def alignLoop (minScene minStill maxLen : Int) (f : Int → ℚ) (frames : List Int) :
    Nat → Nat → Int → List Int → Option (List Int)
  | 0, _, _, _ => none
  | fuel + 1, h, cur, acc =>
    if h < frames.length then
      if frames.getD h 0 - cur < minScene then
        if h ≠ frames.length - 1 then
          alignLoop minScene minStill maxLen f frames fuel (h + 1) cur acc
        else
          alignLoop minScene minStill maxLen f frames fuel (h + 1) (frames.getD h 0)
            (acc ++ [frames.getD h 0])
      else if frames.getD h 0 - cur ≤ maxLen then
        alignLoop minScene minStill maxLen f frames fuel (h + selIdx frames h cur maxLen + 1)
          (frames.getD (h + selIdx frames h cur maxLen) 0)
          (acc ++ [frames.getD (h + selIdx frames h cur maxLen) 0])
      else
        match fallbackSelect f cur minStill maxLen with
        | none => none
        | some fr => alignLoop minScene minStill maxLen f frames fuel h fr (acc ++ [fr])
    else some acc

/-- `generate_svt_av1_keyframes` (source lines 434-540): append the clip
length as a sentinel to the hint list, run the alignment loop from
position 0 with `[0]` as the initial keyframe list, and pop the final
element.  Defaults in the source: `min_scene_length = 129`,
`min_still_scene_length = 193`, `max_scene_length = 257`. -/
def generate_svt_av1_keyframes (f : Int → ℚ) (hints : List Int) (clipLen : Int)
    (minScene minStill maxLen : Int) (fuel : Nat) : Option (List Int) :=
  (alignLoop minScene minStill maxLen f (hints ++ [clipLen]) fuel 0 0 [0]).map List.dropLast

/-! ## Spec-level selection (from the words of the specification)

The specification describes the window selection as: try structures
`32, 16, 8, 4, 2` in order, for each take the latest matching candidate,
and when no structure matches take the latest candidate of the window.
These definitions follow the words of the spec and are compared with the
code-level `structSearch` in the claims below. -/

/-- Latest candidate matching a structure: the last element of the
filtered window. -/
def latestMatch (avail : List Int) (current s : Int) : Option Int :=
  (avail.filter (fun x => (x - current) % s == 1)).getLast?

/-- Spec-level choice: first structure with a match wins and contributes
its latest matching candidate; otherwise the latest candidate of the
window is chosen. -/
def specChoice : List Int → List Int → Int → Option Int
  | [], avail, _ => avail.getLast?
  | s :: rest, avail, current =>
    match latestMatch avail current s with
    | some x => some x
    | none => specChoice rest avail current

/-- Spec-level fallback search (no final default): first structure with a
matching motion frame contributes its latest match. -/
def specMotionChoice : List Int → List Int → Int → Option Int
  | [], _, _ => none
  | s :: rest, cands, current =>
    match latestMatch cands current s with
    | some x => some x
    | none => specMotionChoice rest cands current

/-- The window value actually selected by the code path: the structure
search runs on the window, defaulting to the latest candidate index. -/
def codeChoice (avail : List Int) (current : Int) : Int :=
  avail.getD ((structSearch [32, 16, 8, 4, 2] avail current).getD (avail.length - 1)) 0

/-! ## Part discovery: the resume loop of `SupportsQP.encode`

A discovered part is embedded as its probe outcome:
`none` when `parse_keyframes` (or the trailing `[-1]` indexing) raises,
`some kfs` for the probed keyframe list.  The Python loop iterates over
the live list while mutating it with `del parts[-1]`, which removes the
final list entry; iteration stops as soon as the cursor reaches the
shortened length (source lines 142-152). -/

/-- Probe outcome giving the last keyframe index: `parse_keyframes(p)[-1]`. -/
def partLastKf (p : Option (List Int)) : Option Int :=
  match p with
  | none => none
  | some kfs => kfs.getLast?

/-- The discovery loop: cursor `i` walks the mutable list `parts`;
an unreadable part or a part whose last keyframe is 0 triggers
`del parts[-1]`, otherwise the last keyframe is appended to `acc`.
Returns the final list and the collected keyframes.  The first argument
is a step budget (instantiated with `parts.length` at the call site): the
iteration stops as soon as the cursor reaches the live length, which it
does after at most `parts.length` steps since the length never grows. -/
def discoverGo : Nat → Nat → List (Option (List Int)) → List Int →
    List (Option (List Int)) × List Int
  | 0, _, parts, acc => (parts, acc)
  | fuel + 1, i, parts, acc =>
    if hi : i < parts.length then
      match partLastKf (parts.get ⟨i, hi⟩) with
      | none => discoverGo fuel (i + 1) parts.dropLast acc
      | some kf =>
        if kf = 0 then discoverGo fuel (i + 1) parts.dropLast acc
        else discoverGo fuel (i + 1) parts (acc ++ [kf])
    else (parts, acc)

/-- The discovery loop of `SupportsQP.encode` started at cursor 0. -/
def discoverParts (parts : List (Option (List Int))) :
    List (Option (List Int)) × List Int :=
  discoverGo parts.length 0 parts []

/-- `start_frame = sum(keyframes)` (source line 154). -/
def resumePoint (parts : List (Option (List Int))) : Int :=
  ((discoverParts parts).2).sum

/-- The part list handed to `merge_parts` after discovery (source line 163). -/
def mergeList (parts : List (Option (List Int))) : List (Option (List Int)) :=
  (discoverParts parts).1

/-! ## Resume-point computation over valid parts -/

/-- A discovered part is valid when it parses and its last probed
keyframe index is nonzero. -/
def validPart (p : Option (List Int)) : Prop :=
  ∃ kfs k, p = some kfs ∧ kfs.getLast? = some k ∧ k ≠ 0

/-! ## Part merging: `merge_parts` (`vsmuxtools/video/resumable.py`)

Paths are embedded as an inductive type mirroring the path derivations of
the source (`with_suffix(".mkv")`, the `-001`/`-002` stems produced by
the mkvmerge split, the final part and the target output path); external
`mkvmerge`/`mkvextract` invocations are events whose integer return code
is supplied by an oracle, with `run_commandline(args) > 1` as the failure
test of the source.  A failed invocation raises before any file
operation; the trace records, in order, every command run and every
unlink/rename the function itself performs. -/

inductive MPath
  | part (n : Nat)
  | lastPart
  | finalOut
  | mkv (p : MPath)
  | seg1 (p : MPath)
  | seg2 (p : MPath)
  deriving DecidableEq, Repr

inductive MCmd
  | split (part : MPath) (kf : Int) (outMkv : MPath)
  | remuxLast (last : MPath) (outMkv : MPath)
  | concat (inputs : List MPath) (outMkv : MPath)
  | extract (inMkv : MPath) (target : MPath)
  deriving DecidableEq, Repr

inductive FsEvent
  | run (c : MCmd) (ret : Nat)
  | unlink (p : MPath)
  | rename (src dst : MPath)
  deriving DecidableEq, Repr

/-- The split loop of `merge_parts` (source lines 31-41): remux and split
every prior part at its keyframe count, abort on a return code above 1,
collect the first split segment for the concatenation and both segments
for deletion. -/
def runSplits (oracle : MCmd → Nat) :
    List (Int × MPath) → Except (List FsEvent) (List FsEvent × List MPath × List MPath)
  | [] => .ok ([], [], [])
  | (kf, part) :: rest =>
    let mkvp := MPath.mkv part
    let r := oracle (MCmd.split part kf mkvp)
    if 1 < r then .error [FsEvent.run (MCmd.split part kf mkvp) r]
    else
      match runSplits oracle rest with
      | .error tr => .error (FsEvent.run (MCmd.split part kf mkvp) r :: tr)
      | .ok (tr, mkvs, dels) =>
        .ok (FsEvent.run (MCmd.split part kf mkvp) r :: tr,
             MPath.seg1 mkvp :: mkvs,
             MPath.seg1 mkvp :: MPath.seg2 mkvp :: dels)

/-- `merge_parts` (source lines 23-80): split the prior parts, and when
no split output exists simply rename the final part onto the output
path; otherwise remux the final part, concatenate every collected
segment in order, extract the merged track to the output path, and only
then delete every intermediate file.  Every failing external call raises
before any deletion. -/
def merge_parts (oracle : MCmd → Nat) (last out : MPath) (keyframes : List Int)
    (parts : List MPath) : Except (List FsEvent) (List FsEvent) :=
  match runSplits oracle (keyframes.zip parts) with
  | .error tr => .error tr
  | .ok (tr, mkvParts, dels0) =>
    let dels := dels0 ++ parts
    if mkvParts.length < 1 then
      .ok (tr ++ dels.map FsEvent.unlink ++ [FsEvent.rename last out])
    else
      let lastMkv := MPath.mkv last
      let r1 := oracle (MCmd.remuxLast last lastMkv)
      if 1 < r1 then .error (tr ++ [FsEvent.run (MCmd.remuxLast last lastMkv) r1])
      else
        let allParts := mkvParts ++ [lastMkv]
        let dels2 := dels ++ [lastMkv, last]
        let outMkv := MPath.mkv out
        let r2 := oracle (MCmd.concat allParts outMkv)
        if 1 < r2 then
          .error (tr ++ [FsEvent.run (MCmd.remuxLast last lastMkv) r1,
                         FsEvent.run (MCmd.concat allParts outMkv) r2])
        else
          let r3 := oracle (MCmd.extract outMkv out)
          if 1 < r3 then
            .error (tr ++ [FsEvent.run (MCmd.remuxLast last lastMkv) r1,
                           FsEvent.run (MCmd.concat allParts outMkv) r2,
                           FsEvent.run (MCmd.extract outMkv out) r3])
          else
            .ok (tr ++ [FsEvent.run (MCmd.remuxLast last lastMkv) r1,
                        FsEvent.run (MCmd.concat allParts outMkv) r2,
                        FsEvent.run (MCmd.extract outMkv out) r3]
                   ++ (dels2 ++ [outMkv]).map FsEvent.unlink)

/-- The merged output is in place: the code either renamed the final
part onto the output path or ran a successful extraction targeting it. -/
def outputPlaced (last out : MPath) (tr : List FsEvent) : Prop :=
  FsEvent.rename last out ∈ tr ∨
  ∃ src r, r ≤ 1 ∧ FsEvent.run (MCmd.extract src out) r ∈ tr

/-- The deletion set `_to_delete` of a successful merge (source lines
28-42, 57, 77): both split segments of every prior part, the original
part files, and — as soon as any split output exists — the remuxed last
part with its container plus the merged container.  The guard mirrors
`len(mkv_parts) < 1`: the split loop produces one container per zipped
pair, so the short path fires exactly when the zip is empty. -/
def mergeDeletions (last out : MPath) (keyframes : List Int) (parts : List MPath) :
    List MPath :=
  (keyframes.zip parts).flatMap
      (fun pr => [MPath.seg1 (MPath.mkv pr.2), MPath.seg2 (MPath.mkv pr.2)])
    ++ parts
    ++ (if keyframes.zip parts = [] then []
        else [MPath.mkv last, last, MPath.mkv out])

/-- The full event trace of an all-success merge over one prior part
with keyframe 120 (used to witness C7). -/
def successTrace : List FsEvent :=
  [FsEvent.run (MCmd.split (MPath.part 0) 120 (MPath.mkv (MPath.part 0))) 0,
   FsEvent.run (MCmd.remuxLast MPath.lastPart (MPath.mkv MPath.lastPart)) 0,
   FsEvent.run (MCmd.concat [MPath.seg1 (MPath.mkv (MPath.part 0)), MPath.mkv MPath.lastPart]
     (MPath.mkv MPath.finalOut)) 0,
   FsEvent.run (MCmd.extract (MPath.mkv MPath.finalOut) MPath.finalOut) 0,
   FsEvent.unlink (MPath.seg1 (MPath.mkv (MPath.part 0))),
   FsEvent.unlink (MPath.seg2 (MPath.mkv (MPath.part 0))),
   FsEvent.unlink (MPath.part 0),
   FsEvent.unlink (MPath.mkv MPath.lastPart),
   FsEvent.unlink MPath.lastPart,
   FsEvent.unlink (MPath.mkv MPath.finalOut)]

/-! ## Cache idempotence: `generate_qp_file` and the scene-detection
cache of `SVTAV1.encode`

The on-disk state is a partial map from path names to file contents; the
existence check of the source (`filepath.exists()`,
`cache.exists()`) is a lookup, writing is a point update. -/

/-- `qpfile_{start_frame}.txt` inside the working directory
(source line 412). -/
def qpFilePath (startFrame : Int) : String :=
  "qpfile_" ++ toString startFrame ++ ".txt"

/-- The serialized QP file: one `{i} I -1` line per keyframe
(source lines 419-423). -/
def emitQpContent (keyframes : List Int) : String :=
  keyframes.foldl (fun out i => out ++ toString i ++ " I -1\n") ""

/-- `generate_qp_file` (source lines 411-431): reuse the cached file when
it exists, otherwise generate the keyframes, write the file and return
its path.  The Bool records whether the computation ran. -/
def generate_qp_file (store : String → Option String) (startFrame : Int)
    (keyframes : List Int) : (String → Option String) × String × Bool :=
  match store (qpFilePath startFrame) with
  | some _ => (store, qpFilePath startFrame, false)
  | none =>
    (fun p => if p = qpFilePath startFrame then some (emitQpContent keyframes) else store p,
     qpFilePath startFrame, true)

/-- The scene-detection cache of `SVTAV1.encode` (source lines 260-270):
when `svt_av1_scene_detection_cache.npy` is missing the keyframes are
computed and saved; the keyframe list used afterwards is always loaded
from the cache.  The Bool records whether scene detection ran. -/
def sceneDetectCache (cache : Option (List Int)) (computed : List Int) :
    Option (List Int) × List Int × Bool :=
  match cache with
  | some stored => (some stored, stored, false)
  | none => (some computed, computed, true)

/-! ## Helper lemmas: gap lists -/

theorem gapsOf_nil : gapsOf [] = [] := rfl

theorem gapsOf_singleton (a : Int) : gapsOf [a] = [] := rfl

theorem gapsOf_cons_cons (a b : Int) (t : List Int) :
    gapsOf (a :: b :: t) = (b - a) :: gapsOf (b :: t) := rfl

theorem gapsOf_append_singleton :
    ∀ (l : List Int) (x y : Int), l.getLast? = some y →
      gapsOf (l ++ [x]) = gapsOf l ++ [x - y]
  | [], _, _, h => by simp at h
  | [a], x, y, h => by
      simp only [List.getLast?_singleton, Option.some.injEq] at h
      subst h
      rfl
  | a :: b :: t, x, y, h => by
      have hlast : (b :: t).getLast? = some y := by
        simpa [List.getLast?_cons_cons] using h
      have ih := gapsOf_append_singleton (b :: t) x y hlast
      simp only [List.cons_append] at ih ⊢
      rw [gapsOf_cons_cons, gapsOf_cons_cons, ih]
      simp

theorem chain'_lt_iff_gaps :
    ∀ l : List Int, List.Chain' (· < ·) l ↔ ∀ d ∈ gapsOf l, 0 < d
  | [] => by simp [gapsOf_nil]
  | [a] => by simp [gapsOf_singleton]
  | a :: b :: t => by
      rw [List.chain'_cons, gapsOf_cons_cons, chain'_lt_iff_gaps (b :: t)]
      constructor
      · rintro ⟨hab, hrest⟩ d hd
        rcases List.mem_cons.mp hd with rfl | hd
        · omega
        · exact hrest d hd
      · intro hall
        refine ⟨by have := hall (b - a) (List.mem_cons_self _ _); omega, ?_⟩
        intro d hd
        exact hall d (List.mem_cons_of_mem _ hd)

theorem gapsOf_dropLast :
    ∀ l : List Int, gapsOf l.dropLast = (gapsOf l).dropLast
  | [] => rfl
  | [_] => rfl
  | [_, _] => rfl
  | a :: b :: c :: t => by
      have ih := gapsOf_dropLast (b :: c :: t)
      simp only [List.dropLast_cons₂, gapsOf_cons_cons] at ih ⊢
      rw [ih]

/-! ## Helper lemmas: reverse index scans -/

theorem find?_congr_mem {α : Type} (p q : α → Bool) :
    ∀ l : List α, (∀ x ∈ l, p x = q x) → l.find? p = l.find? q
  | [], _ => rfl
  | a :: t, h => by
      have ha := h a (List.mem_cons_self _ _)
      have ht := find?_congr_mem p q t (fun x hx => h x (List.mem_cons_of_mem _ hx))
      simp only [List.find?_cons, ha, ht]

theorem range_reverse_succ (n : Nat) :
    (List.range (n + 1)).reverse = n :: (List.range n).reverse := by
  rw [List.range_succ, List.reverse_append]
  rfl

theorem scanLatest_lt {avail : List Int} {current s : Int} {i : Nat}
    (h : scanLatest avail current s = some i) : i < avail.length := by
  have hm := List.mem_of_find?_eq_some h
  have : i ∈ List.range avail.length := List.mem_reverse.mp hm
  exact List.mem_range.mp this

theorem scanLatest_prop {avail : List Int} {current s : Int} {i : Nat}
    (h : scanLatest avail current s = some i) :
    (avail.getD i 0 - current) % s == 1 := by
  unfold scanLatest at h
  have hp := List.find?_some h
  simpa using hp

theorem structSearch_lt :
    ∀ {structs : List Int} {avail : List Int} {current : Int} {i : Nat},
      structSearch structs avail current = some i → i < avail.length
  | [], _, _, _, h => by simp [structSearch] at h
  | s :: rest, avail, current, i, h => by
      unfold structSearch at h
      rcases hscan : scanLatest avail current s with _ | j
      · rw [hscan] at h
        exact structSearch_lt h
      · rw [hscan] at h
        cases h
        exact scanLatest_lt hscan

theorem getLast?_eq_getD {l : List Int} (h : l ≠ []) :
    l.getLast? = some (l.getD (l.length - 1) 0) := by
  have hlen : l.length - 1 < l.length := by
    cases l with
    | nil => simp at h
    | cons a t => simp
  rw [List.getLast?_eq_getElem?, List.getD_eq_getElem?_getD, List.getElem?_eq_getElem hlen]
  rfl

theorem getD_append_last (ys : List Int) (y : Int) :
    (ys ++ [y]).getD ys.length 0 = y := by
  rw [List.getD_eq_getElem?_getD, List.getElem?_append_right (Nat.le_refl _)]
  simp

theorem getD_append_left {ys : List Int} {i : Nat} (h : i < ys.length) (y : Int) :
    (ys ++ [y]).getD i 0 = ys.getD i 0 := by
  rw [List.getD_eq_getElem?_getD, List.getElem?_append_left h, ← List.getD_eq_getElem?_getD]

theorem scanLatest_concat (ys : List Int) (y current s : Int) :
    scanLatest (ys ++ [y]) current s =
      if (y - current) % s == 1 then some ys.length else scanLatest ys current s := by
  unfold scanLatest
  rw [List.length_append, List.length_singleton, range_reverse_succ, List.find?_cons]
  rcases hcond : (y - current) % s == 1 with _ | _
  · simp only [getD_append_last, hcond]
    exact find?_congr_mem _ _ _ (fun i hi => by
      have hilt : i < ys.length := List.mem_range.mp (List.mem_reverse.mp hi)
      rw [getD_append_left hilt])
  · simp [getD_append_last, hcond]

theorem latestMatch_concat (ys : List Int) (y current s : Int) :
    latestMatch (ys ++ [y]) current s =
      if (y - current) % s == 1 then some y else latestMatch ys current s := by
  unfold latestMatch
  rw [List.filter_append, List.filter_singleton]
  rcases hcond : (y - current) % s == 1 with _ | _
  · simp [hcond]
  · simp [hcond, List.getLast?_append]

theorem scanLatest_map_getD (avail : List Int) (current s : Int) :
    (scanLatest avail current s).map (fun i => avail.getD i 0) =
      latestMatch avail current s := by
  induction avail using List.reverseRecOn with
  | nil => rfl
  | append_singleton ys y ih =>
    rw [scanLatest_concat, latestMatch_concat]
    rcases hcond : (y - current) % s == 1 with _ | _
    · simp only [Bool.false_eq_true, if_false]
      rw [← ih]
      rcases hscan : scanLatest ys current s with _ | i
      · rfl
      · simp only [Option.map_some']
        rw [getD_append_left (scanLatest_lt hscan)]
    · simp only [if_true, Option.map_some', getD_append_last]

theorem specChoice_eq_structSearch (structs avail : List Int) (current : Int)
    (hne : avail ≠ []) :
    specChoice structs avail current =
      some (avail.getD ((structSearch structs avail current).getD (avail.length - 1)) 0) := by
  induction structs with
  | nil =>
    unfold specChoice structSearch
    simp only [Option.getD_none]
    exact getLast?_eq_getD hne
  | cons s rest ih =>
    unfold specChoice structSearch
    rcases hscan : scanLatest avail current s with _ | i
    · have hmap := scanLatest_map_getD avail current s
      rw [hscan] at hmap
      rw [← hmap]
      exact ih
    · have hmap := scanLatest_map_getD avail current s
      rw [hscan] at hmap
      rw [← hmap]
      rfl

theorem find?_reverse_eq_filter_getLast? (p : Int → Bool) (l : List Int) :
    l.reverse.find? p = (l.filter p).getLast? := by
  induction l using List.reverseRecOn with
  | nil => rfl
  | append_singleton ys y ih =>
    rw [List.reverse_append, List.filter_append, List.filter_singleton]
    rcases hcond : p y with _ | _
    · simp only [List.reverse_singleton, List.singleton_append, List.find?_cons, hcond,
        cond_false, List.append_nil]
      exact ih
    · simp [hcond, List.getLast?_append]

theorem structSearchVal_eq_specMotion (structs cands : List Int) (current : Int) :
    structSearchVal structs cands current = specMotionChoice structs cands current := by
  induction structs with
  | nil => rfl
  | cons s rest ih =>
    unfold structSearchVal specMotionChoice
    rw [find?_reverse_eq_filter_getLast? (fun x => (x - current) % s == 1) cands]
    unfold latestMatch
    rcases hfl : (cands.filter (fun x => (x - current) % s == 1)).getLast? with _ | x
    · exact ih
    · rfl

theorem structSearchVal_mem :
    ∀ {structs cands : List Int} {current x : Int},
      structSearchVal structs cands current = some x → x ∈ cands
  | [], _, _, _, h => by simp [structSearchVal] at h
  | s :: rest, cands, current, x, h => by
    unfold structSearchVal at h
    rcases hf : cands.reverse.find? (fun z => (z - current) % s == 1) with _ | z
    · rw [hf] at h
      exact structSearchVal_mem h
    · rw [hf] at h
      cases h
      exact List.mem_reverse.mp (List.mem_of_find?_eq_some hf)

/-! ## Helper lemmas: the statistical fallback -/

theorem structSearchVal_nil (structs : List Int) (current : Int) :
    structSearchVal structs [] current = none := by
  induction structs with
  | nil => rfl
  | cons s rest ih => simpa [structSearchVal] using ih

theorem fbMotion_mem {f : Int → ℚ} {cur minStill maxLen x : Int}
    (hx : x ∈ fbMotion f cur minStill maxLen) :
    ∃ i : Nat, i < fbLen minStill maxLen ∧ x = cur + minStill + (i : Int) := by
  unfold fbMotion at hx
  rcases List.mem_map.mp hx with ⟨i, hi, heq⟩
  exact ⟨i, List.mem_range.mp (List.mem_filter.mp hi).1, heq.symm⟩

theorem fallbackSelect_bounds {f : Int → ℚ} {cur minStill maxLen x : Int}
    (h : fallbackSelect f cur minStill maxLen = some x) :
    minStill + 24 ≤ maxLen ∧ cur + minStill ≤ x ∧ x ≤ cur + maxLen := by
  unfold fallbackSelect at h
  by_cases hlen : fbLen minStill maxLen < 25
  · simp [hlen] at h
  · have h25 : 25 ≤ fbLen minStill maxLen := Nat.le_of_not_lt hlen
    have h25' : (25 : Int) ≤ maxLen - minStill + 1 := by
      unfold fbLen at h25
      omega
    rw [if_neg hlen] at h
    rcases hsv : structSearchVal [32, 16, 8] (fbMotion f cur minStill maxLen) cur with _ | fr
    · rw [hsv] at h
      cases h
      omega
    · rw [hsv] at h
      cases h
      rcases fbMotion_mem (structSearchVal_mem hsv) with ⟨i, hi, rfl⟩
      have hi' : (i : Int) < maxLen - minStill + 1 := by
        unfold fbLen at hi
        omega
      constructor
      · omega
      constructor
      · omega
      · omega

theorem fbMotion_eq_nil {f : Int → ℚ} {cur minStill maxLen : Int}
    (h : ∀ i : Nat, i < fbLen minStill maxLen →
      (fbDiffs f cur minStill maxLen).getD i 0 ≤ (fbThr f cur minStill maxLen).getD i 0) :
    fbMotion f cur minStill maxLen = [] := by
  unfold fbMotion
  rw [List.map_eq_nil_iff, List.filter_eq_nil_iff]
  intro i hi
  simp only [decide_eq_true_eq, not_lt]
  exact h i (List.mem_range.mp hi)

theorem fallbackSelect_forced {f : Int → ℚ} {cur minStill maxLen : Int}
    (hlen : ¬ fbLen minStill maxLen < 25)
    (hmotion : fbMotion f cur minStill maxLen = []) :
    fallbackSelect f cur minStill maxLen = some (cur + maxLen) := by
  unfold fallbackSelect
  rw [if_neg hlen, hmotion, structSearchVal_nil]

/-! ## Helper lemmas: window access and hint monotonicity -/

theorem windowOf_length_le (frames : List Int) (h : Nat) (cur maxLen : Int) :
    (windowOf frames h cur maxLen).length ≤ frames.length - h := by
  have hpre := List.takeWhile_prefix (l := frames.drop h)
    (fun x => decide (x - cur ≤ maxLen))
  calc (windowOf frames h cur maxLen).length
      ≤ (frames.drop h).length := hpre.length_le
    _ = frames.length - h := List.length_drop h frames

theorem windowOf_getD {frames : List Int} {h : Nat} {cur maxLen : Int} {j : Nat}
    (hj : j < (windowOf frames h cur maxLen).length) :
    (windowOf frames h cur maxLen).getD j 0 = frames.getD (h + j) 0 := by
  unfold windowOf at hj ⊢
  set w := (frames.drop h).takeWhile (fun x => decide (x - cur ≤ maxLen)) with hw
  rcases List.takeWhile_prefix (l := frames.drop h)
    (fun x => decide (x - cur ≤ maxLen)) with ⟨t, ht⟩
  rw [← hw] at ht
  rw [List.getD_eq_getElem?_getD, List.getD_eq_getElem?_getD,
    ← List.getElem?_drop frames h j, ← ht, List.getElem?_append_left hj]

theorem windowOf_prop {frames : List Int} {h : Nat} {cur maxLen : Int} {j : Nat}
    (hj : j < (windowOf frames h cur maxLen).length) :
    frames.getD (h + j) 0 - cur ≤ maxLen := by
  have hmem : (windowOf frames h cur maxLen).getD j 0 ∈ windowOf frames h cur maxLen := by
    rw [List.getD_eq_getElem _ _ hj]
    exact List.getElem_mem hj
  have := List.mem_takeWhile_imp hmem
  rw [windowOf_getD hj] at this
  exact of_decide_eq_true this

theorem windowOf_ne_nil {frames : List Int} {h : Nat} {cur maxLen : Int}
    (hlt : h < frames.length) (hcond : frames.getD h 0 - cur ≤ maxLen) :
    windowOf frames h cur maxLen ≠ [] := by
  unfold windowOf
  rw [List.drop_eq_getElem_cons hlt, List.takeWhile_cons]
  have : frames[h] = frames.getD h 0 := (List.getD_eq_getElem frames 0 hlt).symm
  rw [this, decide_eq_true hcond]
  simp

theorem selIdx_lt {frames : List Int} {h : Nat} {cur maxLen : Int}
    (hne : windowOf frames h cur maxLen ≠ []) :
    selIdx frames h cur maxLen < (windowOf frames h cur maxLen).length := by
  unfold selIdx
  rcases hs : structSearch [32, 16, 8, 4, 2] (windowOf frames h cur maxLen) cur with _ | i
  · simp only [Option.getD_none]
    have : (windowOf frames h cur maxLen).length ≠ 0 := by
      simpa [List.length_eq_zero] using hne
    omega
  · simpa using structSearch_lt hs

theorem frames_mono {frames : List Int} (hch : List.Chain' (· < ·) frames)
    {i j : Nat} (hij : i ≤ j) (hj : j < frames.length) :
    frames.getD i 0 ≤ frames.getD j 0 := by
  have hpw : List.Pairwise (· < ·) frames := List.chain'_iff_pairwise.mp hch
  rcases Nat.lt_or_ge i j with hlt | hge
  · have := (List.pairwise_iff_getElem.mp hpw) i j (Nat.lt_trans hlt hj) hj hlt
    rw [List.getD_eq_getElem _ _ (Nat.lt_trans hlt hj), List.getD_eq_getElem _ _ hj]
    exact le_of_lt this
  · have : i = j := Nat.le_antisymm hij hge
    subst this
    exact le_refl _

theorem frames_strict_mono {frames : List Int} (hch : List.Chain' (· < ·) frames)
    {i j : Nat} (hij : i < j) (hj : j < frames.length) :
    frames.getD i 0 < frames.getD j 0 := by
  have hpw : List.Pairwise (· < ·) frames := List.chain'_iff_pairwise.mp hch
  have := (List.pairwise_iff_getElem.mp hpw) i j (Nat.lt_trans hij hj) hj hij
  rw [List.getD_eq_getElem _ _ (Nat.lt_trans hij hj), List.getD_eq_getElem _ _ hj]
  exact this

theorem frames_le_last {frames : List Int} (hch : List.Chain' (· < ·) frames)
    {i : Nat} (hi : i < frames.length) :
    frames.getD i 0 ≤ frames.getD (frames.length - 1) 0 := by
  have : frames.length - 1 < frames.length := by omega
  exact frames_mono hch (by omega) this

/-! ## The main invariant of the alignment loop

Every completed run of `alignLoop` started from a state whose accumulated
keyframes are gap-bounded ends with the sentinel as the final entry;
every interior gap lies within `[min_scene_length, max_scene_length]` and
only the terminal gap may fall below the minimum. -/

theorem alignLoop_run (minScene minStill maxLen : Int) (f : Int → ℚ) (frames : List Int)
    (hch : List.Chain' (· < ·) frames) (hne : frames ≠ [])
    (hmin : 1 ≤ minScene) (hstill : minScene ≤ minStill) (hmax : minScene ≤ maxLen) :
    ∀ (fuel : Nat) (h : Nat) (cur : Int) (acc l : List Int),
      acc ≠ [] →
      acc.head? = some 0 →
      acc.getLast? = some cur →
      (∀ d ∈ gapsOf acc, minScene ≤ d ∧ d ≤ maxLen) →
      (h < frames.length → cur < frames.getD (frames.length - 1) 0) →
      (frames.length ≤ h → cur = frames.getD (frames.length - 1) 0) →
      alignLoop minScene minStill maxLen f frames fuel h cur acc = some l →
      l.head? = some 0 ∧
      l.getLast? = some (frames.getD (frames.length - 1) 0) ∧
      (∀ d ∈ gapsOf l, 0 < d ∧ d ≤ maxLen) ∧
      (∀ d ∈ (gapsOf l).dropLast, minScene ≤ d) := by
  have hlen1 : 1 ≤ frames.length := List.length_pos.mpr hne
  intro fuel
  induction fuel with
  | zero =>
    intro h cur acc l _ _ _ _ _ _ hrun
    simp [alignLoop] at hrun
  | succ fuel ih =>
    intro h cur acc l hacc hhead hlast hgaps hlt hge hrun
    simp only [alignLoop] at hrun
    by_cases hhl : h < frames.length
    · rw [if_pos hhl] at hrun
      by_cases hskip : frames.getD h 0 - cur < minScene
      · rw [if_pos hskip] at hrun
        by_cases hlid : h = frames.length - 1
        · rw [if_neg (not_not_intro hlid)] at hrun
          have hh1 : ¬ (h + 1 < frames.length) := by omega
          cases fuel with
          | zero => simp [alignLoop] at hrun
          | succ fuel2 =>
            simp only [alignLoop] at hrun
            rw [if_neg hh1] at hrun
            obtain rfl : acc ++ [frames.getD h 0] = l := Option.some.inj hrun
            have hL : frames.getD h 0 = frames.getD (frames.length - 1) 0 := by rw [hlid]
            have hgapsl : gapsOf (acc ++ [frames.getD h 0]) =
                gapsOf acc ++ [frames.getD h 0 - cur] :=
              gapsOf_append_singleton acc _ cur hlast
            refine ⟨?_, ?_, ?_, ?_⟩
            · rw [List.head?_append_of_ne_nil acc hacc]
              exact hhead
            · rw [List.getLast?_concat, hL]
            · intro d hd
              rw [hgapsl] at hd
              rcases List.mem_append.mp hd with hd | hd
              · have := hgaps d hd
                omega
              · have : d = frames.getD h 0 - cur := by simpa using hd
                subst this
                have hcl : cur < frames.getD (frames.length - 1) 0 := hlt hhl
                rw [← hL] at hcl
                omega
            · intro d hd
              rw [hgapsl, List.dropLast_concat] at hd
              exact (hgaps d hd).1
        · rw [if_pos hlid] at hrun
          refine ih (h + 1) cur acc l hacc hhead hlast hgaps (fun _ => hlt hhl) ?_ hrun
          intro hcontra
          omega
      · rw [if_neg hskip] at hrun
        by_cases hmid : frames.getD h 0 - cur ≤ maxLen
        · rw [if_pos hmid] at hrun
          have hwne : windowOf frames h cur maxLen ≠ [] := windowOf_ne_nil hhl hmid
          have hsel : selIdx frames h cur maxLen < (windowOf frames h cur maxLen).length :=
            selIdx_lt hwne
          have hlenle := windowOf_length_le frames h cur maxLen
          have hhs : h + selIdx frames h cur maxLen < frames.length := by omega
          have hub : frames.getD (h + selIdx frames h cur maxLen) 0 - cur ≤ maxLen :=
            windowOf_prop hsel
          have hmono : frames.getD h 0 ≤ frames.getD (h + selIdx frames h cur maxLen) 0 :=
            frames_mono hch (Nat.le_add_right _ _) hhs
          have hlb : minScene ≤ frames.getD (h + selIdx frames h cur maxLen) 0 - cur := by
            omega
          have hgapsl : gapsOf (acc ++ [frames.getD (h + selIdx frames h cur maxLen) 0]) =
              gapsOf acc ++ [frames.getD (h + selIdx frames h cur maxLen) 0 - cur] :=
            gapsOf_append_singleton acc _ cur hlast
          refine ih (h + selIdx frames h cur maxLen + 1)
            (frames.getD (h + selIdx frames h cur maxLen) 0)
            (acc ++ [frames.getD (h + selIdx frames h cur maxLen) 0]) l
            (by simp) ?_ (List.getLast?_concat acc) ?_ ?_ ?_ hrun
          · rw [List.head?_append_of_ne_nil acc hacc]
            exact hhead
          · intro d hd
            rw [hgapsl] at hd
            rcases List.mem_append.mp hd with hd | hd
            · exact hgaps d hd
            · have : d = frames.getD (h + selIdx frames h cur maxLen) 0 - cur := by simpa using hd
              subst this
              exact ⟨hlb, hub⟩
          · intro hlt2
            exact frames_strict_mono hch (by omega) (by omega)
          · intro hge2
            have : h + selIdx frames h cur maxLen = frames.length - 1 := by omega
            rw [this]
        · rw [if_neg hmid] at hrun
          rcases hfb : fallbackSelect f cur minStill maxLen with _ | fr
          · rw [hfb] at hrun
            exact absurd hrun (by simp)
          · rw [hfb] at hrun
            have hb := fallbackSelect_bounds hfb
            have hgapsl : gapsOf (acc ++ [fr]) = gapsOf acc ++ [fr - cur] :=
              gapsOf_append_singleton acc _ cur hlast
            have hfrL : fr < frames.getD (frames.length - 1) 0 := by
              have hle : frames.getD h 0 ≤ frames.getD (frames.length - 1) 0 :=
                frames_le_last hch hhl
              omega
            refine ih h fr (acc ++ [fr]) l (by simp) ?_ (List.getLast?_concat acc) ?_
              (fun _ => hfrL) ?_ hrun
            · rw [List.head?_append_of_ne_nil acc hacc]
              exact hhead
            · intro d hd
              rw [hgapsl] at hd
              rcases List.mem_append.mp hd with hd | hd
              · exact hgaps d hd
              · have : d = fr - cur := by simpa using hd
                subst this
                omega
            · intro hcontra
              omega
    · rw [if_neg hhl] at hrun
      obtain rfl : acc = l := Option.some.inj hrun
      have hcurL := hge (Nat.le_of_not_lt hhl)
      refine ⟨hhead, ?_, ?_, ?_⟩
      · rw [hlast, hcurL]
      · intro d hd
        have := hgaps d hd
        omega
      · intro d hd
        exact (hgaps d (List.dropLast_subset _ hd)).1

theorem sentinel_getD (hints : List Int) (clipLen : Int) :
    (hints ++ [clipLen]).getD ((hints ++ [clipLen]).length - 1) 0 = clipLen := by
  rw [List.length_append, List.length_singleton, Nat.add_sub_cancel]
  exact getD_append_last hints clipLen

/-- Shared consequence of `alignLoop_run` for a full top-level run started
at position 0 with accumulator `[0]`. -/
theorem alignLoop_full_run {f : Int → ℚ} {hints : List Int} {clipLen : Int}
    {minScene minStill maxLen : Int} {fuel : Nat} {full : List Int}
    (hch : List.Chain' (· < ·) (hints ++ [clipLen]))
    (hclip : 0 < clipLen)
    (hmin : 1 ≤ minScene) (hstill : minScene ≤ minStill) (hmax : minScene ≤ maxLen)
    (hfull : alignLoop minScene minStill maxLen f (hints ++ [clipLen]) fuel 0 0 [0] = some full) :
    full.head? = some 0 ∧
    full.getLast? = some clipLen ∧
    (∀ d ∈ gapsOf full, 0 < d ∧ d ≤ maxLen) ∧
    (∀ d ∈ (gapsOf full).dropLast, minScene ≤ d) := by
  have hne : hints ++ [clipLen] ≠ [] := by simp
  have hres := alignLoop_run minScene minStill maxLen f (hints ++ [clipLen]) hch hne
    hmin hstill hmax fuel 0 0 [0] full (by simp) rfl rfl (by simp [gapsOf])
    (fun _ => by rw [sentinel_getD]; exact hclip)
    (fun hc => absurd hc (by simp))
    hfull
  rw [sentinel_getD] at hres
  exact hres

/-- **C1**: for every clip and hint sequence (strictly increasing hints
below the clip length, positive clip length, parameters ordered as the
defaults `1 ≤ min_scene_length ≤ min_still_scene_length`,
`min_scene_length ≤ max_scene_length` are), a completed run of
`generate_svt_av1_keyframes` yields a keyframe list that is strictly
increasing with no duplicates, starts at frame 0, has every gap between
consecutive emitted keyframes inside
`[min_scene_length, max_scene_length]`, and only the final gap to the
clip end may be shorter than the minimum (it is positive and at most
`max_scene_length`). -/
theorem C1_keyframe_list_invariants (f : Int → ℚ) (hints : List Int) (clipLen : Int)
    (minScene minStill maxLen : Int) (fuel : Nat) (l : List Int)
    (hch : List.Chain' (· < ·) (hints ++ [clipLen]))
    (hclip : 0 < clipLen)
    (hmin : 1 ≤ minScene) (hstill : minScene ≤ minStill) (hmax : minScene ≤ maxLen)
    (hrun : generate_svt_av1_keyframes f hints clipLen minScene minStill maxLen fuel = some l) :
    l.head? = some 0 ∧
    List.Chain' (· < ·) l ∧
    l.Nodup ∧
    (∀ d ∈ gapsOf l, minScene ≤ d ∧ d ≤ maxLen) ∧
    (∀ x, l.getLast? = some x → 0 < clipLen - x ∧ clipLen - x ≤ maxLen) := by
  unfold generate_svt_av1_keyframes at hrun
  rcases Option.map_eq_some'.mp hrun with ⟨full, hfull, rfl⟩
  obtain ⟨hhead, hlast, hgaps, hgapsd⟩ :=
    alignLoop_full_run hch hclip hmin hstill hmax hfull
  have hfne : full ≠ [] := by
    intro hcontra
    rw [hcontra] at hlast
    simp at hlast
  have hfulleq : full.dropLast ++ [clipLen] = full := by
    have := List.dropLast_append_getLast hfne
    rwa [List.getLast_eq_iff_getLast?_eq_some hfne |>.mpr hlast] at this
  have hgl : ∀ d ∈ gapsOf full.dropLast, minScene ≤ d ∧ d ≤ maxLen := by
    intro d hd
    rw [gapsOf_dropLast] at hd
    exact ⟨hgapsd d hd, (hgaps d (List.dropLast_subset _ hd)).2⟩
  have hchain : List.Chain' (· < ·) full.dropLast := by
    rw [chain'_lt_iff_gaps]
    intro d hd
    have := hgl d hd
    omega
  refine ⟨?_, hchain, ?_, hgl, ?_⟩
  · rcases hdl : full.dropLast with _ | ⟨a, t⟩
    · exfalso
      rw [hdl] at hfulleq
      rw [← hfulleq] at hhead
      simp at hhead
      omega
    · rw [hdl] at hfulleq
      rw [← hfulleq] at hhead
      simpa using hhead
  · have hpw : List.Pairwise (· < ·) full.dropLast := List.chain'_iff_pairwise.mp hchain
    exact List.Pairwise.imp ne_of_lt hpw
  · intro x hx
    have hgapsfull : gapsOf full = gapsOf full.dropLast ++ [clipLen - x] := by
      conv_lhs => rw [← hfulleq]
      exact gapsOf_append_singleton _ _ _ hx
    have hmem : (clipLen - x) ∈ gapsOf full := by
      rw [hgapsfull]
      simp
    exact hgaps _ hmem

/-- **C1 witness**: a concrete run with one hint at 150 in a 300-frame
clip and the default parameters. -/
theorem C1_keyframe_list_invariants_witness :
    ([0, 150] : List Int).head? = some 0 ∧
    List.Chain' (· < ·) ([0, 150] : List Int) ∧
    ([0, 150] : List Int).Nodup ∧
    (∀ d ∈ gapsOf [0, 150], (129 : Int) ≤ d ∧ d ≤ 257) ∧
    (∀ x, ([0, 150] : List Int).getLast? = some x → 0 < 300 - x ∧ 300 - x ≤ 257) :=
  C1_keyframe_list_invariants (fun _ => 0) [150] 300 129 193 257 10 [0, 150]
    (List.chain'_cons.mpr ⟨by norm_num, List.chain'_singleton _⟩)
    (by decide) (by decide) (by decide) (by decide) (by rfl)

/-- **C9**: for every clip and hint sequence (same well-formedness
hypotheses as C1), the element appended last before the final pop of a
completed run of the alignment loop is always the clip-length sentinel,
the returned keyframe array is the popped list, and therefore every
index in the returned array is strictly less than the clip frame count. -/
theorem C9_sentinel_never_returned (f : Int → ℚ) (hints : List Int) (clipLen : Int)
    (minScene minStill maxLen : Int) (fuel : Nat) (full : List Int)
    (hch : List.Chain' (· < ·) (hints ++ [clipLen]))
    (hclip : 0 < clipLen)
    (hmin : 1 ≤ minScene) (hstill : minScene ≤ minStill) (hmax : minScene ≤ maxLen)
    (hfull : alignLoop minScene minStill maxLen f (hints ++ [clipLen]) fuel 0 0 [0] = some full) :
    full.getLast? = some clipLen ∧
    generate_svt_av1_keyframes f hints clipLen minScene minStill maxLen fuel =
      some full.dropLast ∧
    (∀ x ∈ full.dropLast, x < clipLen) := by
  obtain ⟨hhead, hlast, hgaps, hgapsd⟩ :=
    alignLoop_full_run hch hclip hmin hstill hmax hfull
  have hfne : full ≠ [] := by
    intro hcontra
    rw [hcontra] at hlast
    simp at hlast
  have hfulleq : full.dropLast ++ [clipLen] = full := by
    have := List.dropLast_append_getLast hfne
    rwa [List.getLast_eq_iff_getLast?_eq_some hfne |>.mpr hlast] at this
  have hchain : List.Chain' (· < ·) full := by
    rw [chain'_lt_iff_gaps]
    intro d hd
    exact (hgaps d hd).1
  have hpw : List.Pairwise (· < ·) full := List.chain'_iff_pairwise.mp hchain
  refine ⟨hlast, ?_, ?_⟩
  · unfold generate_svt_av1_keyframes
    rw [hfull]
    rfl
  · intro x hx
    have hpw2 : List.Pairwise (· < ·) (full.dropLast ++ [clipLen]) := by
      rw [hfulleq]
      exact hpw
    have := (List.pairwise_append.mp hpw2).2.2
    exact this x hx clipLen (by simp)

/-- **C9 witness**: the concrete run of the C1 witness; the loop output
ends with the sentinel 300 and the returned list `[0, 150]` stays below
the clip length. -/
theorem C9_sentinel_never_returned_witness :
    ([0, 150, 300] : List Int).getLast? = some 300 ∧
    generate_svt_av1_keyframes (fun _ => 0) [150] 300 129 193 257 10 =
      some ([0, 150, 300] : List Int).dropLast ∧
    (∀ x ∈ ([0, 150, 300] : List Int).dropLast, x < 300) :=
  C9_sentinel_never_returned (fun _ => 0) [150] 300 129 193 257 10 [0, 150, 300]
    (List.chain'_cons.mpr ⟨by norm_num, List.chain'_singleton _⟩)
    (by decide) (by decide) (by decide) (by decide) (by rfl)

/-- **C4 counterexample**: with no WWXD hints and a 50-frame clip under
the default parameters, the final entry of the hint array (the appended
clip-end sentinel 50) is closer than `min_scene_length` to the current
position and is accepted by the loop, yet the returned keyframe list is
`[0]`: the accepted final cut does not appear in the output, contradicting
the claim. -/
theorem C4_last_entry_not_in_output :
    alignLoop 129 193 257 (fun _ => 0) ([] ++ [50]) 5 0 0 [0] = some [0, 50] ∧
    generate_svt_av1_keyframes (fun _ => 0) [] 50 129 193 257 5 = some [0] ∧
    (50 : Int) ∉ ([0] : List Int) :=
  ⟨by rfl, by rfl, by decide⟩

/-- **C4 amended**: whenever the next hint is closer than
`min_scene_length` to the current position it is skipped, except when it
is the last entry of the hint array, in which case it is accepted as the
terminal position of the loop; the final pop then removes it, so it does
not appear in the returned keyframe list. -/
theorem C4_skip_behaviour (minScene minStill maxLen : Int) (f : Int → ℚ)
    (frames : List Int) (fuel : Nat) (h : Nat) (cur : Int) (acc : List Int)
    (hlt : h < frames.length)
    (hclose : frames.getD h 0 - cur < minScene) :
    (h ≠ frames.length - 1 →
      alignLoop minScene minStill maxLen f frames (fuel + 1) h cur acc =
        alignLoop minScene minStill maxLen f frames fuel (h + 1) cur acc) ∧
    (h = frames.length - 1 →
      alignLoop minScene minStill maxLen f frames (fuel + 2) h cur acc =
        some (acc ++ [frames.getD h 0]) ∧
      (alignLoop minScene minStill maxLen f frames (fuel + 2) h cur acc).map List.dropLast =
        some acc) := by
  constructor
  · intro hne
    rw [alignLoop, if_pos hlt, if_pos hclose, if_pos hne]
  · intro heq
    have hh1 : ¬ (h + 1 < frames.length) := by omega
    have hstep : alignLoop minScene minStill maxLen f frames (fuel + 2) h cur acc =
        some (acc ++ [frames.getD h 0]) := by
      rw [alignLoop, if_pos hlt, if_pos hclose, if_neg (not_not_intro heq),
        alignLoop, if_neg hh1]
    refine ⟨hstep, ?_⟩
    rw [hstep]
    simp [List.dropLast_concat]

/-- **C4 amended witness**: concrete instantiations of both halves. -/
theorem C4_skip_behaviour_witness :
    (alignLoop 129 193 257 (fun _ => 0) [10, 50] 6 0 0 [0] =
      alignLoop 129 193 257 (fun _ => 0) [10, 50] 5 1 0 [0]) ∧
    (alignLoop 129 193 257 (fun _ => 0) [50] 5 0 0 [0] = some ([0] ++ [50]) ∧
      (alignLoop 129 193 257 (fun _ => 0) [50] 5 0 0 [0]).map List.dropLast = some [0]) :=
  ⟨(C4_skip_behaviour 129 193 257 (fun _ => 0) [10, 50] 5 0 0 [0]
      (by decide) (by decide)).1 (by decide),
    (C4_skip_behaviour 129 193 257 (fun _ => 0) [50] 3 0 0 [0]
      (by decide) (by decide)).2 (by decide)⟩

/-- **C5**: over every hint window the code selection (structures
`32, 16, 8, 4, 2` in order, candidates scanned from latest to earliest,
first `(candidate - current) % structure == 1` wins, latest candidate as
fallback) coincides with the spec-level description, and in the concrete
instance with current 0 and candidates at offsets 17 and 33 (parameters
`min_scene_length = 2`, `max_scene_length = 257` so both are in the
window) the aligner selects 33. -/
theorem C5_structure_preference :
    (∀ (avail : List Int) (current : Int), avail ≠ [] →
      specChoice [32, 16, 8, 4, 2] avail current = some (codeChoice avail current)) ∧
    generate_svt_av1_keyframes (fun _ => 0) [17, 33] 100 2 193 257 10 = some [0, 33] := by
  constructor
  · intro avail current hne
    exact specChoice_eq_structSearch [32, 16, 8, 4, 2] avail current hne
  · rfl

/-- **C5 witness**: the window `[17, 33]` at current 0 selects 33
(structure 32 matches `33 % 32 == 1`). -/
theorem C5_structure_preference_witness :
    specChoice [32, 16, 8, 4, 2] [17, 33] 0 = some (codeChoice [17, 33] 0) ∧
    codeChoice [17, 33] 0 = 33 :=
  ⟨C5_structure_preference.1 [17, 33] 0 (by decide), by rfl⟩

/-! ## The constant-zero luma-difference series

Used to witness the fallback behaviour: with a constant series no sample
exceeds its threshold. -/

theorem ratAbs_zero : ratAbs 0 = 0 := rfl

theorem npMedianOdd_replicate_zero (n : Nat) :
    npMedianOdd (List.replicate n 0) = 0 := by
  unfold npMedianOdd
  rw [List.Sorted.insertionSort_eq (List.pairwise_replicate.mpr (Or.inr le_rfl))]
  rw [List.getD_eq_getElem?_getD, List.getElem?_replicate]
  split <;> rfl

theorem getD_zero_of_all_zero {l : List ℚ} (hall : ∀ x ∈ l, x = 0) (i : Nat) :
    l.getD i 0 = 0 := by
  rw [List.getD_eq_getElem?_getD]
  rcases hg : l[i]? with _ | x
  · rfl
  · exact hall x (List.getElem?_mem hg)

theorem fbDiffs_const_zero (cur minStill maxLen : Int) :
    fbDiffs (fun _ => 0) cur minStill maxLen =
      List.replicate (fbLen minStill maxLen) 0 := by
  unfold fbDiffs
  rw [List.map_const', List.length_range]

theorem windows25_replicate_zero (n : Nat) :
    windows25 (List.replicate n (0 : ℚ)) =
      List.replicate (n + 1 - 25) (List.replicate 25 0) := by
  unfold windows25
  rw [List.eq_replicate_iff]
  constructor
  · rw [List.length_map, List.length_range, List.length_replicate]
  · intro b hb
    rcases List.mem_map.mp hb with ⟨i, hi, rfl⟩
    have hilt : i < (List.replicate n (0 : ℚ)).length + 1 - 25 := List.mem_range.mp hi
    rw [List.length_replicate] at hilt
    rw [List.drop_replicate, List.take_replicate]
    congr 1
    omega

theorem fbThrCore_const_zero (cur minStill maxLen : Int) :
    fbThrCore (fun _ => 0) cur minStill maxLen =
      List.replicate (fbLen minStill maxLen + 1 - 25) 0 := by
  unfold fbThrCore
  rw [fbDiffs_const_zero, windows25_replicate_zero, List.map_replicate]
  congr 1
  simp only [List.map_replicate, sub_zero, ratAbs_zero, npMedianOdd_replicate_zero]
  norm_num

theorem fbThr_const_zero_all (cur minStill maxLen : Int) :
    ∀ x ∈ fbThr (fun _ => 0) cur minStill maxLen, x = 0 := by
  unfold fbThr
  rw [fbThrCore_const_zero]
  intro x hx
  rcases List.mem_append.mp hx with hx | hx
  · rcases List.mem_append.mp hx with hx | hx
    · have := List.eq_of_mem_replicate hx
      rcases hk : fbLen minStill maxLen + 1 - 25 with _ | k
      · rw [hk] at this
        simpa using this
      · rw [hk] at this
        simpa using this
    · exact List.eq_of_mem_replicate hx
  · have := List.eq_of_mem_replicate hx
    rcases hk : fbLen minStill maxLen + 1 - 25 with _ | k
    · rw [hk] at this
      simpa using this
    · rw [hk, List.replicate_succ', List.getLastD_concat] at this
      exact this

/-- **C6**: when no hint lies within `max_scene_length`, the fallback
computes per-position thresholds `median + 3 * MAD` over 25-sample
sliding windows of the luma-difference slice
`[current + min_still_scene_length, current + max_scene_length]` with the
first and last threshold replicated 12 times (`fbThr`), flags positions
exceeding their threshold (`fbMotion`), searches structures `32, 16, 8`
among the flagged positions from latest to earliest (shown equal to the
spec-level latest-match description), and when no sample exceeds its
threshold it forces a cut at exactly `current + 257` for the default
parameters `min_still_scene_length = 193`, `max_scene_length = 257`. -/
theorem C6_fallback_thresholds (f : Int → ℚ) (current : Int) :
    (structSearchVal [32, 16, 8] (fbMotion f current 193 257) current =
      specMotionChoice [32, 16, 8] (fbMotion f current 193 257) current) ∧
    ((∀ i : Nat, i < fbLen 193 257 →
        (fbDiffs f current 193 257).getD i 0 ≤ (fbThr f current 193 257).getD i 0) →
      fallbackSelect f current 193 257 = some (current + 257)) := by
  constructor
  · exact structSearchVal_eq_specMotion _ _ _
  · intro hno
    exact fallbackSelect_forced (by decide) (fbMotion_eq_nil hno)

/-- **C6 witness**: the constant-zero luma series exceeds no threshold,
so the fallback cuts exactly at `0 + 257`. -/
theorem C6_fallback_thresholds_witness :
    fallbackSelect (fun _ => 0) 0 193 257 = some (0 + 257) :=
  (C6_fallback_thresholds (fun _ => 0) 0).2 (by
    intro i hi
    rw [getD_zero_of_all_zero (fun x hx => by
      rw [fbDiffs_const_zero] at hx
      exact List.eq_of_mem_replicate hx) i]
    rw [getD_zero_of_all_zero (fbThr_const_zero_all 0 193 257) i])

theorem discoverGo_all_valid (parts : List (Option (List Int)))
    (hvalid : ∀ p ∈ parts, validPart p) :
    ∀ (fuel i : Nat) (acc : List Int), parts.length - i ≤ fuel →
      discoverGo fuel i parts acc =
        (parts, acc ++ (parts.drop i).map (fun p => (partLastKf p).getD 0)) := by
  intro fuel
  induction fuel with
  | zero =>
    intro i acc hbud
    have hge : parts.length ≤ i := by omega
    rw [discoverGo, List.drop_eq_nil_of_le hge]
    simp
  | succ fuel ih =>
    intro i acc hbud
    rw [discoverGo]
    by_cases hi : i < parts.length
    · rw [dif_pos hi]
      obtain ⟨kfs, k, hp, hl, hk0⟩ := hvalid _ (parts.get_mem i hi)
      rw [hp]
      simp only [partLastKf]
      rw [hl]
      show (if k = 0 then discoverGo fuel (i + 1) parts.dropLast acc
        else discoverGo fuel (i + 1) parts (acc ++ [k])) = _
      rw [if_neg hk0]
      rw [ih (i + 1) (acc ++ [k]) (by omega)]
      have hdrop : parts.drop i = parts.get ⟨i, hi⟩ :: parts.drop (i + 1) := by
        rw [List.drop_eq_getElem_cons hi]
        rfl
      rw [hdrop, hp]
      simp only [List.map_cons, partLastKf, hl, Option.getD_some, List.append_assoc,
        List.singleton_append]
    · rw [dif_neg hi]
      rw [List.drop_eq_nil_of_le (le_of_not_lt hi)]
      simp

/-- **C2**: for every ordered list of valid discovered parts the resume
frame offset equals the sum of each valid part`s last-keyframe index, in
file order, and every part is retained for the merge. -/
theorem C2_resume_point_sum (parts : List (Option (List Int)))
    (hvalid : ∀ p ∈ parts, validPart p) :
    resumePoint parts = (parts.map (fun p => (partLastKf p).getD 0)).sum ∧
    mergeList parts = parts := by
  have hrun := discoverGo_all_valid parts hvalid parts.length 0 [] (by omega)
  unfold resumePoint mergeList discoverParts
  rw [hrun]
  simp

/-- **C2 witness**: two valid parts with last-keyframe indices 120 and
96 give resume point 216 and are both retained. -/
theorem C2_resume_point_sum_witness :
    resumePoint [some [0, 120], some [0, 96]] = 216 ∧
    mergeList [some [0, 120], some [0, 96]] = [some [0, 120], some [0, 96]] := by
  have h := C2_resume_point_sum [some [0, 120], some [0, 96]] (by
    intro p hp
    rcases List.mem_cons.mp hp with rfl | hp2
    · exact ⟨[0, 120], 120, rfl, rfl, by decide⟩
    · rcases List.mem_cons.mp hp2 with rfl | hp3
      · exact ⟨[0, 96], 96, rfl, rfl, by decide⟩
      · simp at hp3)
  exact ⟨h.1.trans (by rfl), h.2⟩

/-- **C3** (evidence for the code bug): with a first part whose only
probed keyframe is index 0 and a second, valid part with last keyframe
96, the discovery loop of `SupportsQP.encode` executes `del parts[-1]`,
which removes the *last* list entry instead of the invalid current one:
the invalid part 0 is retained in the list handed to the merge, the
valid part 1 is dropped and never parsed, the resume point is 0 instead
of 96, and no file deletion happens at discovery time. -/
theorem C3_invalid_part_mishandled :
    discoverParts [some [0], some [0, 96]] = ([some [0]], []) ∧
    resumePoint [some [0], some [0, 96]] = 0 ∧
    mergeList [some [0], some [0, 96]] = [some [0]] :=
  ⟨by rfl, by rfl, by rfl⟩

theorem runSplits_error (oracle : MCmd → Nat) :
    ∀ {pairs : List (Int × MPath)} {tr : List FsEvent},
      runSplits oracle pairs = .error tr →
      (∃ c r, FsEvent.run c r ∈ tr ∧ 1 < r) ∧
      (∀ e ∈ tr, ∃ p kf m r, e = FsEvent.run (MCmd.split p kf m) r)
  | [], tr, h => by simp [runSplits] at h
  | (kf, part) :: rest, tr, h => by
    rw [runSplits] at h
    by_cases hr : 1 < oracle (MCmd.split part kf (MPath.mkv part))
    · rw [if_pos hr] at h
      cases h
      refine ⟨⟨MCmd.split part kf (MPath.mkv part),
        oracle (MCmd.split part kf (MPath.mkv part)), by simp, hr⟩, ?_⟩
      intro e he
      rcases List.mem_singleton.mp he with rfl
      exact ⟨_, _, _, _, rfl⟩
    · rw [if_neg hr] at h
      rcases hrec : runSplits oracle rest with tr2 | ok2
      · rw [hrec] at h
        cases h
        obtain ⟨⟨c, r, hcr, hr1⟩, hall⟩ := runSplits_error oracle hrec
        refine ⟨⟨c, r, List.mem_cons_of_mem _ hcr, hr1⟩, ?_⟩
        intro e he
        rcases List.mem_cons.mp he with rfl | he2
        · exact ⟨_, _, _, _, rfl⟩
        · exact hall e he2
      · rw [hrec] at h
        rcases ok2 with ⟨tr2, mkvs2, dels2⟩
        simp at h

theorem runSplits_ok (oracle : MCmd → Nat) :
    ∀ {pairs : List (Int × MPath)} {tr : List FsEvent} {mkvs dels : List MPath},
      runSplits oracle pairs = .ok (tr, mkvs, dels) →
      (∀ e ∈ tr, ∃ p kf m r, e = FsEvent.run (MCmd.split p kf m) r ∧ r ≤ 1) ∧
      (∀ q ∈ dels, (∃ m, q = MPath.seg1 m) ∨ (∃ m, q = MPath.seg2 m))
  | [], tr, mkvs, dels, h => by
    rw [runSplits] at h
    cases h
    exact ⟨by simp, by simp⟩
  | (kf, part) :: rest, tr, mkvs, dels, h => by
    rw [runSplits] at h
    by_cases hr : 1 < oracle (MCmd.split part kf (MPath.mkv part))
    · rw [if_pos hr] at h
      simp at h
    · rw [if_neg hr] at h
      rcases hrec : runSplits oracle rest with tr2 | ok2
      · rw [hrec] at h
        simp at h
      · rw [hrec] at h
        rcases ok2 with ⟨tr2, mkvs2, dels2⟩
        obtain ⟨rfl, rfl, rfl⟩ : FsEvent.run (MCmd.split part kf (MPath.mkv part))
              (oracle (MCmd.split part kf (MPath.mkv part))) :: tr2 = tr ∧
            MPath.seg1 (MPath.mkv part) :: mkvs2 = mkvs ∧
            MPath.seg1 (MPath.mkv part) :: MPath.seg2 (MPath.mkv part) :: dels2 = dels := by
          cases h
          exact ⟨rfl, rfl, rfl⟩
        obtain ⟨hev, hdel⟩ := runSplits_ok oracle hrec
        constructor
        · intro e he
          rcases List.mem_cons.mp he with rfl | he2
          · exact ⟨_, _, _, _, rfl, Nat.le_of_not_lt hr⟩
          · exact hev e he2
        · intro q hq
          rcases List.mem_cons.mp hq with rfl | hq2
          · exact Or.inl ⟨_, rfl⟩
          · rcases List.mem_cons.mp hq2 with rfl | hq3
            · exact Or.inr ⟨_, rfl⟩
            · exact hdel q hq3

theorem runSplits_shape (oracle : MCmd → Nat) :
    ∀ {pairs : List (Int × MPath)} {tr : List FsEvent} {mkvs dels : List MPath},
      runSplits oracle pairs = .ok (tr, mkvs, dels) →
      mkvs.length = pairs.length ∧
      dels = pairs.flatMap
        (fun pr => [MPath.seg1 (MPath.mkv pr.2), MPath.seg2 (MPath.mkv pr.2)])
  | [], tr, mkvs, dels, h => by
    rw [runSplits] at h
    cases h
    exact ⟨rfl, rfl⟩
  | (kf, part) :: rest, tr, mkvs, dels, h => by
    rw [runSplits] at h
    by_cases hr : 1 < oracle (MCmd.split part kf (MPath.mkv part))
    · rw [if_pos hr] at h
      simp at h
    · rw [if_neg hr] at h
      rcases hrec : runSplits oracle rest with tr2 | ok2
      · rw [hrec] at h
        simp at h
      · rw [hrec] at h
        rcases ok2 with ⟨tr2, mkvs2, dels2⟩
        obtain ⟨rfl, rfl, rfl⟩ : FsEvent.run (MCmd.split part kf (MPath.mkv part))
              (oracle (MCmd.split part kf (MPath.mkv part))) :: tr2 = tr ∧
            MPath.seg1 (MPath.mkv part) :: mkvs2 = mkvs ∧
            MPath.seg1 (MPath.mkv part) :: MPath.seg2 (MPath.mkv part) :: dels2 = dels := by
          cases h
          exact ⟨rfl, rfl, rfl⟩
        obtain ⟨hlen, hdels⟩ := runSplits_shape oracle hrec
        constructor
        · simp [hlen]
        · rw [List.flatMap_cons, hdels]
          rfl

/-- **C7**: every run of the part merge is atomic.  Either some external
remux invocation reports failure (return code above 1) and the merge
aborts by raising before any file operation — the trace holds no unlink
and no rename, and nothing was placed at the final output path — or
every external invocation succeeds, every intermediate file is deleted —
the original parts, both split remnants of each prior part, and (as soon
as any split output exists) the remuxed last part with its container and
the merged container, i.e. the whole `_to_delete` set embedded as
`mergeDeletions` — and the merged output is in place (renamed there, or
written by a successful extraction targeting it) while the output path
itself is never deleted. -/
theorem C7_merge_atomicity (oracle : MCmd → Nat) (last : MPath) (parts : List MPath)
    (keyframes : List Int)
    (hlast : last ≠ MPath.finalOut) (hparts : MPath.finalOut ∉ parts) :
    (∀ tr, merge_parts oracle last MPath.finalOut keyframes parts = .error tr →
      (∃ c r, FsEvent.run c r ∈ tr ∧ 1 < r) ∧
      (∀ p, FsEvent.unlink p ∉ tr) ∧
      (∀ a b, FsEvent.rename a b ∉ tr) ∧
      ¬ outputPlaced last MPath.finalOut tr) ∧
    (∀ tr, merge_parts oracle last MPath.finalOut keyframes parts = .ok tr →
      (∀ c r, FsEvent.run c r ∈ tr → r ≤ 1) ∧
      (∀ p ∈ mergeDeletions last MPath.finalOut keyframes parts, FsEvent.unlink p ∈ tr) ∧
      outputPlaced last MPath.finalOut tr ∧
      FsEvent.unlink MPath.finalOut ∉ tr) := by
  rcases hS : runSplits oracle (keyframes.zip parts) with trS | ⟨trS, mkvs, dels0⟩
  · obtain ⟨hfail, hall⟩ := runSplits_error oracle hS
    constructor
    · intro tr htr
      simp only [merge_parts, hS] at htr
      cases htr
      refine ⟨hfail, ?_, ?_, ?_⟩
      · intro p hp
        obtain ⟨_, _, _, _, heq⟩ := hall _ hp
        simp at heq
      · intro a b hab
        obtain ⟨_, _, _, _, heq⟩ := hall _ hab
        simp at heq
      · rintro (hren | ⟨src, r, hr, hmem⟩)
        · obtain ⟨_, _, _, _, heq⟩ := hall _ hren
          simp at heq
        · obtain ⟨_, _, _, _, heq⟩ := hall _ hmem
          simp at heq
    · intro tr htr
      simp only [merge_parts, hS] at htr
      exact Except.noConfusion htr
  · obtain ⟨hevS, hdelS⟩ := runSplits_ok oracle hS
    by_cases hshort : mkvs.length < 1
    · constructor
      · intro tr htr
        simp only [merge_parts, hS, if_pos hshort] at htr
        exact Except.noConfusion htr
      · intro tr htr
        simp only [merge_parts, hS, if_pos hshort] at htr
        cases htr
        refine ⟨?_, ?_, Or.inl (by simp), ?_⟩
        · intro c r hcr
          rcases List.mem_append.mp hcr with hcr | hcr
          · rcases List.mem_append.mp hcr with hcr | hcr
            · obtain ⟨_, _, _, _, heq, hle⟩ := hevS _ hcr
              cases heq
              exact hle
            · rcases List.mem_map.mp hcr with ⟨q, _, heq⟩
              simp at heq
          · rcases List.mem_singleton.mp hcr with heq
            simp at heq
        · intro p hp
          obtain ⟨hlen0, hdels0⟩ := runSplits_shape oracle hS
          have hzipnil : keyframes.zip parts = [] :=
            List.length_eq_zero.mp (by omega)
          rw [mergeDeletions, hzipnil] at hp
          simp at hp
          refine List.mem_append.mpr (Or.inl (List.mem_append.mpr (Or.inr ?_)))
          exact List.mem_map.mpr ⟨p, List.mem_append.mpr (Or.inr hp), rfl⟩
        · intro hbad
          rcases List.mem_append.mp hbad with hbad | hbad
          · rcases List.mem_append.mp hbad with hbad | hbad
            · obtain ⟨_, _, _, _, heq⟩ := hevS _ hbad
              simp at heq
            · rcases List.mem_map.mp hbad with ⟨q, hq, heq⟩
              have hqout : q = MPath.finalOut := by
                cases heq
                rfl
              subst hqout
              rcases List.mem_append.mp hq with hq | hq
              · rcases hdelS _ hq with ⟨m, hm⟩ | ⟨m, hm⟩ <;> simp at hm
              · exact hparts hq
          · rcases List.mem_singleton.mp hbad with heq
            simp at heq
    · by_cases hr1 : 1 < oracle (MCmd.remuxLast last (MPath.mkv last))
      · constructor
        · intro tr htr
          simp only [merge_parts, hS, if_neg hshort, if_pos hr1] at htr
          cases htr
          refine ⟨⟨MCmd.remuxLast last (MPath.mkv last),
            oracle (MCmd.remuxLast last (MPath.mkv last)), by simp, hr1⟩, ?_, ?_, ?_⟩
          · intro p hp
            rcases List.mem_append.mp hp with hp | hp
            · obtain ⟨_, _, _, _, heq⟩ := hevS _ hp
              simp at heq
            · rcases List.mem_singleton.mp hp with heq
              simp at heq
          · intro a b hab
            rcases List.mem_append.mp hab with hab | hab
            · obtain ⟨_, _, _, _, heq⟩ := hevS _ hab
              simp at heq
            · rcases List.mem_singleton.mp hab with heq
              simp at heq
          · rintro (hren | ⟨src, r, hr, hmem⟩)
            · rcases List.mem_append.mp hren with hren | hren
              · obtain ⟨_, _, _, _, heq⟩ := hevS _ hren
                simp at heq
              · rcases List.mem_singleton.mp hren with heq
                simp at heq
            · rcases List.mem_append.mp hmem with hmem | hmem
              · obtain ⟨_, _, _, _, heq⟩ := hevS _ hmem
                simp at heq
              · rcases List.mem_singleton.mp hmem with heq
                simp at heq
        · intro tr htr
          simp only [merge_parts, hS, if_neg hshort, if_pos hr1] at htr
          exact Except.noConfusion htr
      · by_cases hr2 : 1 < oracle (MCmd.concat (mkvs ++ [MPath.mkv last]) (MPath.mkv MPath.finalOut))
        · constructor
          · intro tr htr
            simp only [merge_parts, hS, if_neg hshort, if_neg hr1, if_pos hr2] at htr
            cases htr
            refine ⟨⟨MCmd.concat (mkvs ++ [MPath.mkv last]) (MPath.mkv MPath.finalOut),
              oracle (MCmd.concat (mkvs ++ [MPath.mkv last]) (MPath.mkv MPath.finalOut)),
              by simp, hr2⟩, ?_, ?_, ?_⟩
            · intro p hp
              rcases List.mem_append.mp hp with hp | hp
              · obtain ⟨_, _, _, _, heq⟩ := hevS _ hp
                simp at heq
              · rcases List.mem_cons.mp hp with heq | hp2
                · simp at heq
                · rcases List.mem_singleton.mp hp2 with heq
                  simp at heq
            · intro a b hab
              rcases List.mem_append.mp hab with hab | hab
              · obtain ⟨_, _, _, _, heq⟩ := hevS _ hab
                simp at heq
              · rcases List.mem_cons.mp hab with heq | hab2
                · simp at heq
                · rcases List.mem_singleton.mp hab2 with heq
                  simp at heq
            · rintro (hren | ⟨src, r, hr, hmem⟩)
              · rcases List.mem_append.mp hren with hren | hren
                · obtain ⟨_, _, _, _, heq⟩ := hevS _ hren
                  simp at heq
                · rcases List.mem_cons.mp hren with heq | hren2
                  · simp at heq
                  · rcases List.mem_singleton.mp hren2 with heq
                    simp at heq
              · rcases List.mem_append.mp hmem with hmem | hmem
                · obtain ⟨_, _, _, _, heq⟩ := hevS _ hmem
                  simp at heq
                · rcases List.mem_cons.mp hmem with heq | hmem2
                  · simp at heq
                  · rcases List.mem_singleton.mp hmem2 with heq
                    simp at heq
          · intro tr htr
            simp only [merge_parts, hS, if_neg hshort, if_neg hr1, if_pos hr2] at htr
            exact Except.noConfusion htr
        · by_cases hr3 : 1 < oracle (MCmd.extract (MPath.mkv MPath.finalOut) MPath.finalOut)
          · constructor
            · intro tr htr
              simp only [merge_parts, hS, if_neg hshort, if_neg hr1, if_neg hr2,
                if_pos hr3] at htr
              cases htr
              refine ⟨⟨MCmd.extract (MPath.mkv MPath.finalOut) MPath.finalOut,
                oracle (MCmd.extract (MPath.mkv MPath.finalOut) MPath.finalOut),
                by simp, hr3⟩, ?_, ?_, ?_⟩
              · intro p hp
                rcases List.mem_append.mp hp with hp | hp
                · obtain ⟨_, _, _, _, heq⟩ := hevS _ hp
                  simp at heq
                · rcases List.mem_cons.mp hp with heq | hp2
                  · simp at heq
                  · rcases List.mem_cons.mp hp2 with heq | hp3
                    · simp at heq
                    · rcases List.mem_singleton.mp hp3 with heq
                      simp at heq
              · intro a b hab
                rcases List.mem_append.mp hab with hab | hab
                · obtain ⟨_, _, _, _, heq⟩ := hevS _ hab
                  simp at heq
                · rcases List.mem_cons.mp hab with heq | hab2
                  · simp at heq
                  · rcases List.mem_cons.mp hab2 with heq | hab3
                    · simp at heq
                    · rcases List.mem_singleton.mp hab3 with heq
                      simp at heq
              · rintro (hren | ⟨src, r, hr, hmem⟩)
                · rcases List.mem_append.mp hren with hren | hren
                  · obtain ⟨_, _, _, _, heq⟩ := hevS _ hren
                    simp at heq
                  · rcases List.mem_cons.mp hren with heq | hren2
                    · simp at heq
                    · rcases List.mem_cons.mp hren2 with heq | hren3
                      · simp at heq
                      · rcases List.mem_singleton.mp hren3 with heq
                        simp at heq
                · rcases List.mem_append.mp hmem with hmem | hmem
                  · obtain ⟨_, _, _, _, heq⟩ := hevS _ hmem
                    simp at heq
                  · rcases List.mem_cons.mp hmem with heq | hmem2
                    · simp at heq
                    · rcases List.mem_cons.mp hmem2 with heq | hmem3
                      · simp at heq
                      · rcases List.mem_singleton.mp hmem3 with heq
                        obtain ⟨hsrc, hret⟩ : src = MPath.mkv MPath.finalOut ∧
                            r = oracle (MCmd.extract (MPath.mkv MPath.finalOut)
                              MPath.finalOut) := by
                          cases heq
                          exact ⟨rfl, rfl⟩
                        subst hret
                        omega
            · intro tr htr
              simp only [merge_parts, hS, if_neg hshort, if_neg hr1, if_neg hr2,
                if_pos hr3] at htr
              exact Except.noConfusion htr
          · constructor
            · intro tr htr
              simp only [merge_parts, hS, if_neg hshort, if_neg hr1, if_neg hr2,
                if_neg hr3] at htr
              exact Except.noConfusion htr
            · intro tr htr
              simp only [merge_parts, hS, if_neg hshort, if_neg hr1, if_neg hr2,
                if_neg hr3] at htr
              cases htr
              refine ⟨?_, ?_, Or.inr ⟨MPath.mkv MPath.finalOut,
                oracle (MCmd.extract (MPath.mkv MPath.finalOut) MPath.finalOut),
                Nat.le_of_not_lt hr3, by simp⟩, ?_⟩
              · intro c r hcr
                rcases List.mem_append.mp hcr with hcr | hcr
                · rcases List.mem_append.mp hcr with hcr | hcr
                  · obtain ⟨_, _, _, _, heq, hle⟩ := hevS _ hcr
                    cases heq
                    exact hle
                  · rcases List.mem_cons.mp hcr with heq | hcr2
                    · cases heq
                      exact Nat.le_of_not_lt hr1
                    · rcases List.mem_cons.mp hcr2 with heq | hcr3
                      · cases heq
                        exact Nat.le_of_not_lt hr2
                      · rcases List.mem_singleton.mp hcr3 with heq
                        cases heq
                        exact Nat.le_of_not_lt hr3
                · rcases List.mem_map.mp hcr with ⟨q, _, heq⟩
                  simp at heq
              · intro p hp
                obtain ⟨hlen0, hdels0⟩ := runSplits_shape oracle hS
                have hzipne : ¬ (keyframes.zip parts = []) := by
                  intro hc
                  rw [hc] at hlen0
                  simp only [List.length_nil] at hlen0
                  omega
                rw [mergeDeletions, if_neg hzipne] at hp
                refine List.mem_append.mpr (Or.inr ?_)
                refine List.mem_map.mpr ⟨p, ?_, rfl⟩
                rcases List.mem_append.mp hp with hpA | hpI
                · rcases List.mem_append.mp hpA with hpF | hpP
                  · refine List.mem_append.mpr (Or.inl ?_)
                    refine List.mem_append.mpr (Or.inl ?_)
                    refine List.mem_append.mpr (Or.inl ?_)
                    rw [hdels0]
                    exact hpF
                  · refine List.mem_append.mpr (Or.inl ?_)
                    refine List.mem_append.mpr (Or.inl ?_)
                    exact List.mem_append.mpr (Or.inr hpP)
                · rcases List.mem_cons.mp hpI with rfl | hpI2
                  · refine List.mem_append.mpr (Or.inl ?_)
                    exact List.mem_append.mpr (Or.inr (by simp))
                  · rcases List.mem_cons.mp hpI2 with rfl | hpI3
                    · refine List.mem_append.mpr (Or.inl ?_)
                      exact List.mem_append.mpr (Or.inr (by simp))
                    · rcases List.mem_singleton.mp hpI3 with rfl
                      exact List.mem_append.mpr (Or.inr (by simp))
              · intro hbad
                rcases List.mem_append.mp hbad with hbad | hbad
                · rcases List.mem_append.mp hbad with hbad | hbad
                  · obtain ⟨_, _, _, _, heq⟩ := hevS _ hbad
                    simp at heq
                  · rcases List.mem_cons.mp hbad with heq | hbad2
                    · simp at heq
                    · rcases List.mem_cons.mp hbad2 with heq | hbad3
                      · simp at heq
                      · rcases List.mem_singleton.mp hbad3 with heq
                        simp at heq
                · rcases List.mem_map.mp hbad with ⟨q, hq, heq⟩
                  have hqout : q = MPath.finalOut := by
                    cases heq
                    rfl
                  subst hqout
                  rcases List.mem_append.mp hq with hq | hq
                  · rcases List.mem_append.mp hq with hq | hq
                    · rcases List.mem_append.mp hq with hq | hq
                      · rcases hdelS _ hq with ⟨m, hm⟩ | ⟨m, hm⟩ <;> simp at hm
                      · exact hparts hq
                    · rcases List.mem_cons.mp hq with heq2 | hq2
                      · simp at heq2
                      · rcases List.mem_singleton.mp hq2 with heq2
                        exact hlast heq2.symm
                  · rcases List.mem_singleton.mp hq with heq2
                    simp at heq2

/-- **C7 witness**: a failing oracle (every command returns 2) on one
part aborts with a run-only trace; an all-success oracle deletes the
part and places the output. -/
theorem C7_merge_atomicity_witness :
    ((∃ c r, FsEvent.run c r ∈
        ([FsEvent.run (MCmd.split (MPath.part 0) 120 (MPath.mkv (MPath.part 0))) 2] :
          List FsEvent) ∧ 1 < r) ∧
      (∀ p, FsEvent.unlink p ∉
        ([FsEvent.run (MCmd.split (MPath.part 0) 120 (MPath.mkv (MPath.part 0))) 2] :
          List FsEvent)) ∧
      (∀ a b, FsEvent.rename a b ∉
        ([FsEvent.run (MCmd.split (MPath.part 0) 120 (MPath.mkv (MPath.part 0))) 2] :
          List FsEvent)) ∧
      ¬ outputPlaced MPath.lastPart MPath.finalOut
        [FsEvent.run (MCmd.split (MPath.part 0) 120 (MPath.mkv (MPath.part 0))) 2]) ∧
    ((∀ c r, FsEvent.run c r ∈ successTrace → r ≤ 1) ∧
      (∀ p ∈ mergeDeletions MPath.lastPart MPath.finalOut [120] [MPath.part 0],
        FsEvent.unlink p ∈ successTrace) ∧
      outputPlaced MPath.lastPart MPath.finalOut successTrace ∧
      FsEvent.unlink MPath.finalOut ∉ successTrace) :=
  by
  constructor
  · exact (C7_merge_atomicity (fun _ => 2) MPath.lastPart [MPath.part 0] [120]
      (by decide) (by decide)).1 _ (by rfl)
  · exact (C7_merge_atomicity (fun _ => 0) MPath.lastPart [MPath.part 0] [120]
      (by decide) (by decide)).2 successTrace (by rfl)

/-- **C10**: with no prior valid parts the merge invokes no external
command at all; it performs exactly one operation, renaming the final
part onto the target output path, and deletes nothing. -/
theorem C10_empty_parts_rename (oracle : MCmd → Nat) (last out : MPath)
    (keyframes : List Int) :
    merge_parts oracle last out keyframes [] = .ok [FsEvent.rename last out] := by
  rw [merge_parts, List.zip_nil_right]
  rfl

/-- **C8**: scene detection and keyframe-config generation are
idempotent across runs.  When the cache entry derived from the job
parameters exists, the computation is skipped (flag `false`), the cached
result is reused, the store is unchanged, and a second run with the
identical inputs returns the same output path and a byte-identical
keyframe list. -/
theorem C8_cache_idempotent (store : String → Option String) (startFrame : Int)
    (keyframes : List Int) (cache : Option (List Int)) (computed : List Int) :
    ((generate_qp_file (generate_qp_file store startFrame keyframes).1 startFrame keyframes).2.1 =
        (generate_qp_file store startFrame keyframes).2.1 ∧
      (generate_qp_file (generate_qp_file store startFrame keyframes).1 startFrame keyframes).2.2 =
        false ∧
      (generate_qp_file (generate_qp_file store startFrame keyframes).1 startFrame keyframes).1 =
        (generate_qp_file store startFrame keyframes).1) ∧
    ((sceneDetectCache (sceneDetectCache cache computed).1 computed).2.1 =
        (sceneDetectCache cache computed).2.1 ∧
      (sceneDetectCache (sceneDetectCache cache computed).1 computed).2.2 = false ∧
      (sceneDetectCache (sceneDetectCache cache computed).1 computed).1 =
        (sceneDetectCache cache computed).1) := by
  constructor
  · rcases hs : store (qpFilePath startFrame) with _ | c
    · simp [generate_qp_file, hs]
    · simp [generate_qp_file, hs]
  · rcases cache with _ | stored <;> simp [sceneDetectCache]
